import Mathlib

/-!
Verification of the metaheuristic solving engine (construction and
local-search algorithms over an abstract Solution/Problem contract).

Each Python source function is shallowly embedded as an executable Lean
definition: machine floats become exact rationals (`ℚ`), Python `None`
becomes `Option`/`Except`, in-place mutation becomes explicit state
passing, calls to `random.*` become explicit oracle parameters carrying
the values the library would draw, and `perf_counter() - start` becomes
an explicit elapsed-time oracle `clock : ℕ → ℚ` read once per check.
Unbounded `while` loops take an explicit fuel argument and return `none`
when the fuel runs out.
-/

namespace S3

/- Batteries marks the rational field operations `@[irreducible]`, which
stops `decide` from evaluating concrete runs; restore the default
reducibility inside this development so closed theorems can be checked
by evaluation. -/
attribute [local semireducible] Rat.add Rat.sub Rat.mul

/-- `max` on ℚ written out (`if`-based, so it evaluates). -/
def qmax (a b : ℚ) : ℚ := if a ≤ b then b else a

/-- `abs` on ℚ written out (`if`-based, so it evaluates). -/
def qabs (a : ℚ) : ℚ := if a < 0 then -a else a

/-- `utils.isclose` on exact rationals: Python's `math.isclose` with the
library-wide tolerances `rel_tol = 1e-6`, `abs_tol = 1e-9`:
`|a-b| ≤ max(rel_tol * max(|a|,|b|), abs_tol)`. -/
def isclose (a b : ℚ) : Bool :=
  qabs (a - b) ≤ qmax (mkRat 1 1000000 * qmax (qabs a) (qabs b)) (mkRat 1 1000000000)

/-- `utils.argmin` : index of the first minimum of a list (Python `min`
over `enumerate`, which keeps the earliest minimum). -/
def argmin (l : List ℚ) : ℕ :=
  match l with
  | [] => 0
  | x :: xs =>
    (xs.foldl (fun (acc : ℕ × ℚ × ℕ) v =>
      if v < acc.2.1 then (acc.2.2, v, acc.2.2 + 1) else (acc.1, acc.2.1, acc.2.2 + 1))
      (0, x, 1)).1

/-! ## Sampling utility (`utils.py`, claim C1)

`non_repeating_lcg(n, seed)` draws `c = random.randrange(1, m, 2)` (an odd
number) and `x = random.randrange(m)` (the start state) and then iterates
`x := (5*x + c) % m` for `m = 2 ^ ⌈log2 n⌉` steps, yielding the states
below `n`.  The embedding takes the two drawn values `c` and `x0` as
parameters; the seed only determines which `(c, x0)` pair is drawn. -/

/-- One step of the linear congruential generator: `x = (a * x + c) % m`
with the fixed multiplier `a = 5`. -/
def lcgStep (m c x : ℕ) : ℕ := (5 * x + c) % m

/-- `utils.non_repeating_lcg`: the list of yielded values.  `m` is
`1 << ceil(log2(n))`, i.e. `2 ^ Nat.clog 2 n`; each of the `m` loop
iterations yields the current state if it is `< n`. -/
def non_repeating_lcg (n c x0 : ℕ) : List ℕ :=
  if 0 < n then
    if 1 < 2 ^ Nat.clog 2 n then
      ((List.range (2 ^ Nat.clog 2 n)).map
        (fun i => (lcgStep (2 ^ Nat.clog 2 n) c)^[i] x0)).filter (fun v => v < n)
    else [0]
  else []

/-- `utils.sample`: yields exactly the values of `non_repeating_lcg`. -/
def sample (n c x0 : ℕ) : List ℕ := non_repeating_lcg n c x0

/-- Partial geometric sum `1 + 5 + 5^2 + ... + 5^(d-1)`, the quantity
governing the period of the generator. -/
def lcgSum (d : ℕ) : ℕ := ∑ j ∈ Finset.range d, 5 ^ j

theorem lcgSum_succ (d : ℕ) : lcgSum (d + 1) = 5 * lcgSum d + 1 := by
  simpa [lcgSum] using (geom_sum_succ (x := (5 : ℕ)) (n := d))

theorem lcgSum_two_mul (e : ℕ) : lcgSum (2 * e) = lcgSum e * (1 + 5 ^ e) := by
  have h : lcgSum (2 * e) = lcgSum e + ∑ j ∈ Finset.range e, 5 ^ (e + j) := by
    simpa [lcgSum, two_mul] using Finset.sum_range_add (fun j => (5 : ℕ) ^ j) e e
  have h2 : ∑ j ∈ Finset.range e, (5 : ℕ) ^ (e + j) = 5 ^ e * lcgSum e := by
    simp [lcgSum, pow_add, Finset.mul_sum]
  rw [h, h2]; ring

theorem lcgSum_mod_two (d : ℕ) : lcgSum d % 2 = d % 2 := by
  induction d with
  | zero => simp [lcgSum]
  | succ d ih =>
    rw [lcgSum_succ]
    omega

theorem five_pow_mod_four (e : ℕ) : 5 ^ e % 4 = 1 := by
  induction e with
  | zero => rfl
  | succ e ih =>
    rw [pow_succ, Nat.mul_mod, ih]

/-- The 2-adic valuation lemma behind the full period: `2^k` divides the
geometric sum `lcgSum d` exactly when it divides `d`. -/
theorem pow_two_dvd_lcgSum_iff (k d : ℕ) : 2 ^ k ∣ lcgSum d ↔ 2 ^ k ∣ d := by
  induction k generalizing d with
  | zero => simp
  | succ k ih =>
    rcases Nat.even_or_odd d with he | ho
    · obtain ⟨e, rfl⟩ := he
      have hsplit : lcgSum (e + e) = lcgSum e * (1 + 5 ^ e) := by
        simpa [two_mul] using lcgSum_two_mul e
      have h4 : 5 ^ e % 4 = 1 := five_pow_mod_four e
      -- 1 + 5^e = 2 * w with w odd
      obtain ⟨w, hw, hwodd⟩ : ∃ w, 1 + 5 ^ e = 2 * w ∧ w % 2 = 1 := by
        refine ⟨(1 + 5 ^ e) / 2, ?_, ?_⟩ <;> omega
      constructor
      · intro hdvd
        rw [hsplit, hw] at hdvd
        rw [show lcgSum e * (2 * w) = 2 * (lcgSum e * w) by ring,
          pow_succ, mul_comm ((2:ℕ) ^ k) 2] at hdvd
        have hdvd' : 2 ^ k ∣ lcgSum e * w :=
          (mul_dvd_mul_iff_left (two_ne_zero)).1 hdvd
        have hcop : Nat.Coprime (2 ^ k) w :=
          Nat.Coprime.pow_left k (Nat.coprime_two_left.2 (Nat.odd_iff.2 hwodd))
        have hse : 2 ^ k ∣ lcgSum e := (hcop.dvd_mul_right).1 hdvd'
        obtain ⟨t, ht⟩ := (ih e).1 hse
        exact ⟨t, by rw [pow_succ, ht]; ring⟩
      · intro hdvd
        obtain ⟨t, ht⟩ := hdvd
        have he' : 2 ^ k ∣ e := by
          have h2 : 2 * e = 2 * (2 ^ k * t) := by
            rw [two_mul, ht, pow_succ]; ring
          exact ⟨t, Nat.eq_of_mul_eq_mul_left (by norm_num) h2⟩
        obtain ⟨u, hu⟩ := (ih e).2 he'
        rw [hsplit, hw, hu]
        exact ⟨u * w, by rw [pow_succ]; ring⟩
    · -- d odd: both sides false since the sum is odd and k+1 ≥ 1
      have hs : lcgSum d % 2 = 1 := by
        rw [lcgSum_mod_two]
        exact Nat.odd_iff.1 ho
      have hd : d % 2 = 1 := Nat.odd_iff.1 ho
      constructor
      · intro hdvd
        have h2 : (2:ℕ) ∣ lcgSum d :=
          dvd_trans (dvd_pow_self 2 k.succ_ne_zero) hdvd
        omega
      · intro hdvd
        have h2 : (2:ℕ) ∣ d :=
          dvd_trans (dvd_pow_self 2 k.succ_ne_zero) hdvd
        omega

theorem lcgSum_add (i d : ℕ) : lcgSum (i + d) = lcgSum i + 5 ^ i * lcgSum d := by
  have h : lcgSum (i + d) = lcgSum i + ∑ j ∈ Finset.range d, 5 ^ (i + j) := by
    simpa [lcgSum] using Finset.sum_range_add (fun j => (5 : ℕ) ^ j) i d
  have h2 : ∑ j ∈ Finset.range d, (5 : ℕ) ^ (i + j) = 5 ^ i * lcgSum d := by
    simp [lcgSum, pow_add, Finset.mul_sum]
  rw [h, h2]

theorem lcgIter_lt (m c x0 : ℕ) (hm : 1 < m) (hx0 : x0 < m) (i : ℕ) :
    (lcgStep m c)^[i] x0 < m := by
  induction i with
  | zero => simpa using hx0
  | succ i _ =>
    rw [Function.iterate_succ_apply', lcgStep]
    exact Nat.mod_lt _ (by omega)

/-- Closed form of the LCG orbit in `ZMod m`:
`x_i = 5^i * x_0 + c * (1 + 5 + ... + 5^(i-1))`. -/
theorem lcgIter_cast (m c x0 : ℕ) (i : ℕ) :
    (((lcgStep m c)^[i] x0 : ℕ) : ZMod m) = 5 ^ i * (x0 : ZMod m) + c * lcgSum i := by
  induction i with
  | zero => simp [lcgSum]
  | succ i ih =>
    rw [Function.iterate_succ_apply', lcgStep, ZMod.natCast_mod, lcgSum_succ]
    push_cast
    rw [ih]
    ring

/-- Any return of the orbit to its start happens after a multiple of
`2^k` steps: the core full-period property of `x ↦ (5x + c) % 2^k`
for odd `c`. -/
theorem lcg_return_dvd (k c x0 d : ℕ) (hc : c % 2 = 1)
    (h : (5 : ZMod (2 ^ k)) ^ d * (x0 : ZMod (2 ^ k)) + c * lcgSum d = (x0 : ZMod (2 ^ k))) :
    2 ^ k ∣ d := by
  set m := 2 ^ k with hm
  -- rewrite the return equation as lcgSum d * (4 * x0 + c) = 0
  have hgeom : ((lcgSum d : ℕ) : ZMod m) * ((5 : ZMod m) - 1) = (5 : ZMod m) ^ d - 1 := by
    have := geom_sum_mul (α := ZMod m) 5 d
    rw [lcgSum]
    push_cast
    exact this
  have hkey : ((lcgSum d : ℕ) : ZMod m) * ((4 * x0 + c : ℕ) : ZMod m) = 0 := by
    push_cast
    have h51 : (5 : ZMod m) - 1 = 4 := by ring
    rw [h51] at hgeom
    calc ((lcgSum d : ℕ) : ZMod m) * (4 * (x0 : ZMod m) + (c : ZMod m))
        = ((5 : ZMod m) ^ d - 1) * (x0 : ZMod m) + (c : ZMod m) * ((lcgSum d : ℕ) : ZMod m) := by
          rw [← hgeom]; ring
      _ = ((5 : ZMod m) ^ d * (x0 : ZMod m) + (c : ZMod m) * ((lcgSum d : ℕ) : ZMod m))
            - (x0 : ZMod m) := by ring
      _ = 0 := by
          rw [show ((c : ZMod m) * ((lcgSum d : ℕ) : ZMod m))
              = ((c : ℕ) : ZMod m) * ((lcgSum d : ℕ) : ZMod m) by norm_cast] at h ⊢
          rw [h]; ring
  have hunit : IsUnit ((4 * x0 + c : ℕ) : ZMod m) := by
    rw [ZMod.isUnit_iff_coprime]
    refine Nat.Coprime.pow_right k ?_
    rw [Nat.coprime_two_right]
    exact Nat.odd_iff.2 (by omega)
  have hzero : ((lcgSum d : ℕ) : ZMod m) = 0 := (hunit.mul_left_eq_zero).1 hkey
  have hdvd : m ∣ lcgSum d := (ZMod.natCast_zmod_eq_zero_iff_dvd _ _).1 hzero
  exact (pow_two_dvd_lcgSum_iff k d).1 hdvd

/-- Five is invertible modulo `2^k`. -/
theorem isUnit_five (k : ℕ) : IsUnit (5 : ZMod (2 ^ k)) := by
  have h : ((5 : ℕ) : ZMod (2 ^ k)) = (5 : ZMod (2 ^ k)) := by push_cast; ring
  rw [← h, ZMod.isUnit_iff_coprime]
  exact Nat.Coprime.pow_right k (by norm_num)

theorem lcg_iter_eq_le (k c x0 : ℕ) (hc : c % 2 = 1) {i j : ℕ} (hle : i ≤ j)
    (hj : j < 2 ^ k)
    (hij : (lcgStep (2 ^ k) c)^[i] x0 = (lcgStep (2 ^ k) c)^[j] x0) : i = j := by
  set m := 2 ^ k with hm
  obtain ⟨d, rfl⟩ := Nat.exists_eq_add_of_le hle
  have hcast := congrArg (fun t : ℕ => ((t : ℕ) : ZMod m)) hij
  simp only [lcgIter_cast] at hcast
  rw [lcgSum_add, pow_add] at hcast
  push_cast at hcast
  have h5 : IsUnit ((5 : ZMod m) ^ i) := (isUnit_five k).pow i
  have heq : (5 : ZMod m) ^ i * ((5 : ZMod m) ^ d * (x0 : ZMod m)
      + (c : ZMod m) * ((lcgSum d : ℕ) : ZMod m))
      = (5 : ZMod m) ^ i * (x0 : ZMod m) := by
    linear_combination -hcast
  have hcancel : (5 : ZMod m) ^ d * (x0 : ZMod m)
      + (c : ZMod m) * ((lcgSum d : ℕ) : ZMod m) = (x0 : ZMod m) :=
    h5.mul_right_injective heq
  have hcancel' : (5 : ZMod m) ^ d * (x0 : ZMod m)
      + ((c : ℕ) : ZMod m) * ((lcgSum d : ℕ) : ZMod m) = ((x0 : ℕ) : ZMod m) := by
    exact_mod_cast hcancel
  have hdvd : m ∣ d := lcg_return_dvd k c x0 d hc hcancel'
  rcases Nat.eq_zero_or_pos d with rfl | hd
  · omega
  · have := Nat.le_of_dvd hd hdvd
    omega

/-- The first `2^k` LCG states are pairwise distinct. -/
theorem lcg_orbit_nodup (k c x0 : ℕ) (hc : c % 2 = 1) :
    (((List.range (2 ^ k)).map (fun i => (lcgStep (2 ^ k) c)^[i] x0))).Nodup := by
  refine List.Nodup.map_on ?_ (List.nodup_range _)
  intro i hi j hj hij
  rw [List.mem_range] at hi hj
  rcases le_total i j with hle | hle
  · exact lcg_iter_eq_le k c x0 hc hle hj hij
  · exact (lcg_iter_eq_le k c x0 hc hle hi hij.symm).symm

/-- Every residue below `2^k` occurs among the first `2^k` states. -/
theorem lcg_orbit_mem (k c x0 y : ℕ) (hk : 0 < k) (hc : c % 2 = 1)
    (hx0 : x0 < 2 ^ k) (hy : y < 2 ^ k) :
    y ∈ (List.range (2 ^ k)).map (fun i => (lcgStep (2 ^ k) c)^[i] x0) := by
  have hm1 : 1 < 2 ^ k := Nat.one_lt_two_pow_iff.2 (by omega)
  set m := 2 ^ k with hm
  set L := (List.range m).map (fun i => (lcgStep m c)^[i] x0) with hL
  have hnodup : L.Nodup := lcg_orbit_nodup k c x0 hc
  have hlen : L.length = m := by simp [hL]
  have hsub : L.toFinset ⊆ Finset.range m := by
    intro v hv
    rw [List.mem_toFinset, hL, List.mem_map] at hv
    obtain ⟨i, _, rfl⟩ := hv
    exact Finset.mem_range.2 (lcgIter_lt m c x0 hm1 hx0 i)
  have hcard : (Finset.range m).card ≤ L.toFinset.card := by
    rw [List.toFinset_card_of_nodup hnodup, hlen, Finset.card_range]
  have heq : L.toFinset = Finset.range m := Finset.eq_of_subset_of_card_le hsub hcard
  rw [← List.mem_toFinset, heq]
  exact Finset.mem_range.2 hy

/-- **C1**: for every `n > 0` and every pair of values the seeded RNG can
draw (`c` odd, start state `x0 < 2^⌈log2 n⌉`), the output sequence of
`non_repeating_lcg` (and of `sample`, which wraps it) has no repeats and
its members are exactly the integers `v < n`: no repeats, no omissions,
no out-of-range values. -/
theorem non_repeating_lcg_full (n c x0 : ℕ) (hn : 0 < n) (hc : c % 2 = 1)
    (hx0 : x0 < 2 ^ Nat.clog 2 n) :
    (sample n c x0).Nodup ∧ ∀ v, v ∈ sample n c x0 ↔ v < n := by
  rw [sample, non_repeating_lcg, if_pos hn]
  set k := Nat.clog 2 n with hk
  have hnm : n ≤ 2 ^ k := Nat.le_pow_clog (by norm_num) n
  by_cases h1 : 1 < 2 ^ k
  · rw [if_pos h1]
    have hkpos : 0 < k := by
      rcases Nat.eq_zero_or_pos k with h0 | h; · rw [h0] at h1; omega
      · exact h
    constructor
    · exact (lcg_orbit_nodup k c x0 hc).filter _
    · intro v
      rw [List.mem_filter]
      constructor
      · intro ⟨_, hlt⟩
        simpa using hlt
      · intro hvn
        refine ⟨?_, by simpa using hvn⟩
        exact lcg_orbit_mem k c x0 v hkpos hc hx0 (by omega)
  · rw [if_neg h1]
    have hn1 : n = 1 := by
      have : 2 ^ k ≤ 1 := by omega
      omega
    subst hn1
    refine ⟨by simp, ?_⟩
    intro v
    simp only [List.mem_singleton]
    omega

/-- Witness for C1 at `n = 3`, `c = 1`, `x0 = 0`. -/
theorem non_repeating_lcg_full_witness :
    (0 < 3 ∧ 1 % 2 = 1 ∧ 0 < 2 ^ Nat.clog 2 3) ∧
    ((sample 3 1 0).Nodup ∧ ∀ v, v ∈ sample 3 1 0 ↔ v < 3) :=
  ⟨⟨by norm_num, by norm_num, pow_pos (by norm_num) _⟩,
    non_repeating_lcg_full 3 1 0 (by norm_num) (by norm_num)
      (pow_pos (by norm_num) _)⟩

/-! ## Beam search (`beam_search.py`, claims C3 and C4)

`KMin` is embedded exactly as written, including the unsorted fill phase:
`insert` appends to the end while fewer than `k` values are held, and only
once full does it combine the `keys[-1]` test with `bisect.bisect_right`
(a faithful binary search on the possibly-unsorted key list). -/

/-- Python `bisect.bisect_right(a, x)` restricted to `[lo, hi)`: the
loop `while lo < hi` narrows the interval by at least one every
iteration, so fuel `a.length ≥ hi - lo` makes the recursion structural
without changing the result. -/
def bisect_aux (a : List ℚ) (x : ℚ) : ℕ → ℕ → ℕ → ℕ
  | 0, lo, _ => lo
  | fuel + 1, lo, hi =>
    if lo < hi then
      if x < a.getD ((lo + hi) / 2) 0 then bisect_aux a x fuel lo ((lo + hi) / 2)
      else bisect_aux a x fuel ((lo + hi) / 2 + 1) hi
    else lo

/-- Python `bisect.bisect_right(a, x)`. -/
def bisect_right (a : List ℚ) (x : ℚ) : ℕ := bisect_aux a x a.length 0 a.length

/-- The `KMin` class: a bounded container meant to keep the `k` minimum
values according to a key function.  `keys`/`values` mirror the two
parallel Python lists. -/
structure KMin (V : Type) where
  k : ℕ
  key : V → ℚ
  keys : List ℚ
  values : List V

/-- `KMin.insert` as implemented: when full, compare against the *last*
key (`keys[-1]`, modelled by `getLastD`; `k = 0`, where Python raises
`IndexError`, is never exercised here) and splice with `bisect_right`
followed by `pop()`; when not yet full, append at the end. -/
def KMin.insert {V : Type} (st : KMin V) (value : V) : KMin V :=
  if st.values.length = st.k then
    let key := st.key value
    if key < st.keys.getLastD 0 then
      let i := bisect_right st.keys key
      { st with keys := (st.keys.insertIdx i key).dropLast,
                values := (st.values.insertIdx i value).dropLast }
    else st
  else
    { st with keys := st.keys ++ [st.key value], values := st.values ++ [value] }

/-- Insert a list of rationals (key = identity) into a fresh `KMin k`. -/
def kminInsertAll (k : ℕ) (l : List ℚ) : KMin ℚ :=
  l.foldl KMin.insert { k := k, key := id, keys := [], values := [] }

/-- The abstract construction-side Solution/Problem contract: the
operations used by `greedy_construction`, `beam_search` and `grasp`,
bundled as pure functions on a solution state type `S`. -/
structure ConsProblem (S C : Type) where
  objective : S → Option ℚ
  lower_bound : S → ℚ
  is_feasible : S → Bool
  add_moves : S → List C
  lower_bound_incr_add : S → C → Option ℚ
  add : S → C → S

/-- Python `min(..., key=itemgetter(0), default=None)`: the first pair
attaining the minimal first component, `none` on an empty list. -/
def minByFst {C : Type} (l : List (ℚ × C)) : Option (ℚ × C) :=
  match l with
  | [] => none
  | x :: xs => some (xs.foldl (fun acc p => if p.1 < acc.1 then p else acc) x)

/-- `greedy_construction.greedy_construction`: repeatedly add the
component with minimal defined lower-bound increment (ties broken by
enumeration order), stopping when no candidate has a defined increment. -/
def greedy_construction {S C : Type} (P : ConsProblem S C) : ℕ → S → Option S
  | 0, _ => none
  | fuel + 1, s =>
    match minByFst ((P.add_moves s).filterMap
        (fun c => (P.lower_bound_incr_add s c).map (fun q => (q, c)))) with
    | none => some s
    | some (_, c) => greedy_construction P fuel (P.add s c)

/-- `beam_search.candidates`: insert every `(lb + incr, s, c)` tuple into
a fresh `KMin bw`; `none` models the `TypeError` Python raises when an
increment is `None` (`lb + None`). -/
def candidates {S C : Type} (P : ConsProblem S C) (prev : List (ℚ × S)) (bw : ℕ) :
    Option (KMin (ℚ × S × C)) :=
  prev.foldlM (fun acc ls =>
      (P.add_moves ls.2).foldlM (fun acc2 c =>
          (P.lower_bound_incr_add ls.2 c).map (fun q => acc2.insert (ls.1 + q, ls.2, c)))
        acc)
    { k := bw, key := fun t => t.1, keys := [], values := [] }

/-- `beam_search.evolve`: apply each retained candidate's move to a copy. -/
def evolve {S C : Type} (P : ConsProblem S C) (km : KMin (ℚ × S × C)) : List (ℚ × S) :=
  km.values.map (fun t => (t.1, P.add t.2.1 t.2.2))

/-- The best-feasible tracking inside `beam_search`'s main loop.  The
`some/none` branch where a feasible solution has an undefined objective
would raise in Python (`None < bestobj`); it is unreachable under the
contract (objective defined iff feasible) and keeps the accumulator. -/
def beamUpdateBest {S C : Type} (P : ConsProblem S C) (acc : S × Option ℚ) (ls : ℚ × S) :
    S × Option ℚ :=
  if P.is_feasible ls.2 then
    match acc.2, P.objective ls.2 with
    | none, o => (ls.2, o)
    | some b, some o => if o < b then (ls.2, some o) else acc
    | some _, none => acc
  else acc

/-- The `while True` loop of `beam_search.beam_search`. -/
def beamLoop {S C : Type} (P : ConsProblem S C) (bw : ℕ) :
    ℕ → List (ℚ × S) → S → Option ℚ → Option S
  | 0, _, _, _ => none
  | fuel + 1, v, best, bestobj =>
    match candidates P v bw with
    | none => none
    | some km =>
      if km.values.length = 0 then some best
      else
        let v2 := evolve P km
        let bb := v2.foldl (beamUpdateBest P) (best, bestobj)
        beamLoop P bw fuel v2 bb.1 bb.2

/-- `beam_search.beam_search`: start from the given solution (it is the
default best) and iterate. -/
def beam_search {S C : Type} (P : ConsProblem S C) (fuel : ℕ) (s : S) (bw : ℕ) : Option S :=
  beamLoop P bw fuel [(P.lower_bound s, s)] s (P.objective s)

/-- **C3** (claim falsified at a concrete input): inserting `3, 1, 2`
into `KMin` with `k = 2` and identity key retains `[3, 1]`: the element
`2` is rejected although it is among the two minimal inserted keys, and
the larger `3` stays.  The fill phase appends keys unsorted (`[3, 1]`),
so the full-phase test `2 < keys[-1] = 1` fails and the docstring's
"k min objects" contract is broken. -/
theorem kmin_insert_not_k_minimal :
    (kminInsertAll 2 [3, 1, 2]).values = [3, 1] ∧
    (2 : ℚ) ∉ (kminInsertAll 2 [3, 1, 2]).values ∧
    (3 : ℚ) ∈ (kminInsertAll 2 [3, 1, 2]).values ∧
    (2 : ℚ) < 3 := by decide

/-! ### Claim C4: beam search with width 1 versus greedy construction -/

/-- All lower-bound increments of addable components are defined. -/
def AllDefined {S C : Type} (P : ConsProblem S C) : Prop :=
  ∀ s : S, ∀ c ∈ P.add_moves s, (P.lower_bound_incr_add s c).isSome

/-- No two candidate increments at any state are equal. -/
def NoTies {S C : Type} (P : ConsProblem S C) : Prop :=
  ∀ s : S,
    ((P.add_moves s).filterMap (fun c => P.lower_bound_incr_add s c)).Pairwise (· ≠ ·)

/-- A two-state instance whose increments are totally ordered with no
ties: state `0` has exactly one add move leading to the dead-end state
`1`; nothing is feasible. -/
def P4 : ConsProblem ℕ Unit where
  objective := fun _ => none
  lower_bound := fun _ => 0
  is_feasible := fun _ => false
  add_moves := fun s => if s = 0 then [()] else []
  lower_bound_incr_add := fun _ _ => some 1
  add := fun s _ => s + 1

/-- **C4** (counterexample): on `P4` — which satisfies the claim's
total-order/no-ties hypotheses — greedy construction returns the final
constructed solution `1`, but `beam_search` with width 1 returns the
*initial* solution `0`, because its result is the best *feasible*
solution tracked across rounds (defaulting to the input), not the last
constructed one. -/
theorem beam_width_one_ne_greedy :
    AllDefined P4 ∧ NoTies P4 ∧
    beam_search P4 3 0 1 = some 0 ∧
    greedy_construction P4 3 0 = some 1 ∧
    (some 0 : Option ℕ) ≠ some 1 := by
  refine ⟨?_, ?_, by decide, by decide, by decide⟩
  · intro s c _
    simp [P4]
  · intro s
    by_cases h : s = 0 <;> simp [P4, NoTies, h]

/-- Inserting into a fresh `KMin` with positive width appends. -/
theorem kmin_insert_empty {V : Type} (key : V → ℚ) (k : ℕ) (v : V) (hk : k ≠ 0) :
    KMin.insert { k := k, key := key, keys := [], values := [] } v
      = { k := k, key := key, keys := [key v], values := [v] } := by
  simp only [KMin.insert, List.length_nil]
  rw [if_neg (Ne.symm hk)]
  simp

/-- `KMin.insert` on a full width-1 container keeps the key-smaller of
the held and the new value (the held one wins ties). -/
theorem kmin1_insert {V : Type} (key : V → ℚ) (v0 v : V) :
    KMin.insert { k := 1, key := key, keys := [key v0], values := [v0] } v
      = { k := 1, key := key, keys := [key (if key v < key v0 then v else v0)],
          values := [if key v < key v0 then v else v0] } := by
  by_cases h : key v < key v0
  · have hb : bisect_right [key v0] (key v) = 0 := by
      simp [bisect_right, bisect_aux, h]
    simp only [KMin.insert, List.length_cons, List.length_nil, if_pos rfl]
    rw [List.getLastD, if_pos h, hb]
    simp [h]
  · simp only [KMin.insert, List.length_cons, List.length_nil, if_pos rfl]
    rw [List.getLastD, if_neg h]
    simp [h]

/-- Folding inserts into a width-1 `KMin` keeps the first key-minimum. -/
theorem kmin1_fold {V : Type} (key : V → ℚ) (l : List V) : ∀ v0 : V,
    l.foldl KMin.insert { k := 1, key := key, keys := [key v0], values := [v0] }
      = { k := 1, key := key,
          keys := [key (l.foldl (fun cur v => if key v < key cur then v else cur) v0)],
          values := [l.foldl (fun cur v => if key v < key cur then v else cur) v0] } := by
  induction l with
  | nil => intro v0; rfl
  | cons h t ih =>
    intro v0
    simp only [List.foldl]
    rw [kmin1_insert]
    exact ih (if key h < key v0 then h else v0)

/-- With all increments defined, the inner fold of `candidates` is a pure
fold of inserts over the scored move list. -/
theorem candidates_inner {S C : Type} (P : ConsProblem S C) (lb : ℚ) (g : S)
    (moves : List C) : ∀ acc : KMin (ℚ × S × C),
    (∀ c ∈ moves, (P.lower_bound_incr_add g c).isSome) →
    (moves.foldlM (fun acc2 c =>
        (P.lower_bound_incr_add g c).map (fun q => acc2.insert (lb + q, g, c))) acc
      : Option (KMin (ℚ × S × C)))
      = some ((moves.filterMap
          (fun c => (P.lower_bound_incr_add g c).map (fun q => (lb + q, g, c)))).foldl
        KMin.insert acc) := by
  induction moves with
  | nil => intro acc _; rfl
  | cons c cs ih =>
    intro acc hdef
    have hc : (P.lower_bound_incr_add g c).isSome := hdef c (by simp)
    obtain ⟨q, hq⟩ := Option.isSome_iff_exists.1 hc
    rw [List.foldlM_cons, List.filterMap_cons, hq]
    simp only [Option.map_some', Option.bind_eq_bind, Option.some_bind]
    exact ih (acc.insert (lb + q, g, c)) (fun c' hc' => hdef c' (by simp [hc']))

/-- `candidates` on a single beam entry, all increments defined. -/
theorem candidates_single {S C : Type} (P : ConsProblem S C) (lb : ℚ) (g : S) (bw : ℕ)
    (hdef : ∀ c ∈ P.add_moves g, (P.lower_bound_incr_add g c).isSome) :
    candidates P [(lb, g)] bw = some
      (((P.add_moves g).filterMap
          (fun c => (P.lower_bound_incr_add g c).map (fun q => (lb + q, g, c)))).foldl
        KMin.insert { k := bw, key := fun t => t.1, keys := [], values := [] }) := by
  rw [candidates, List.foldlM_cons]
  rw [candidates_inner P lb g (P.add_moves g) _ hdef]
  rfl

/-- The scored tuple list is the image of the greedy candidate-pair list
under the monotone re-keying `(q, c) ↦ (lb + q, g, c)`. -/
theorem tuple_list_eq_map {S C : Type} (P : ConsProblem S C) (lb : ℚ) (g : S) :
    (P.add_moves g).filterMap
        (fun c => (P.lower_bound_incr_add g c).map (fun q => (lb + q, g, c)))
      = ((P.add_moves g).filterMap
          (fun c => (P.lower_bound_incr_add g c).map (fun q => (q, c)))).map
        (fun p => (lb + p.1, g, p.2)) := by
  rw [List.map_filterMap]
  congr 1
  funext c
  cases P.lower_bound_incr_add g c <;> rfl

/-- First-minimum folds commute with the monotone re-keying. -/
theorem foldl_min_map {S C : Type} (lb : ℚ) (g : S) (l : List (ℚ × C)) : ∀ v0 : ℚ × C,
    (l.map (fun p => (lb + p.1, g, p.2))).foldl
        (fun (cur v : ℚ × S × C) => if v.1 < cur.1 then v else cur) (lb + v0.1, g, v0.2)
      = (lb + (l.foldl (fun cur v => if v.1 < cur.1 then v else cur) v0).1, g,
          (l.foldl (fun cur v => if v.1 < cur.1 then v else cur) v0).2) := by
  induction l with
  | nil => intro v0; rfl
  | cons h t ih =>
    intro v0
    simp only [List.map, List.foldl]
    by_cases hc : h.1 < v0.1
    · rw [if_pos (by simpa using (add_lt_add_left hc lb)), if_pos hc]
      exact ih h
    · rw [if_neg (fun hx => hc ((add_lt_add_iff_left lb).1 hx)), if_neg hc]
      exact ih v0


/-- `candidates` on a single-entry beam with width 1 retains exactly the
first candidate minimizing `lb + incr`. -/
theorem candidates_one {S C : Type} (P : ConsProblem S C)
    (Hdef : AllDefined P) (lb : ℚ) (g : S) (p0 : ℚ × C) (ps : List (ℚ × C))
    (hp : (P.add_moves g).filterMap
        (fun c => (P.lower_bound_incr_add g c).map (fun q => (q, c))) = p0 :: ps) :
    candidates P [(lb, g)] 1 = some
      { k := 1, key := fun t => t.1,
        keys := [lb + (ps.foldl (fun cur v => if v.1 < cur.1 then v else cur) p0).1],
        values := [(lb + (ps.foldl (fun cur v => if v.1 < cur.1 then v else cur) p0).1, g,
          (ps.foldl (fun cur v => if v.1 < cur.1 then v else cur) p0).2)] } := by
  rw [candidates_single P lb g 1 (fun c hc => Hdef g c hc)]
  rw [tuple_list_eq_map, hp]
  simp only [List.map, List.foldl]
  rw [kmin_insert_empty _ 1 _ (by norm_num)]
  rw [kmin1_fold]
  rw [foldl_min_map]

/-- The width-1 beam loop tracks greedy construction exactly while the
current solution still has add moves and the incumbent objective is
still undefined. -/
theorem beam1_loop_eq_greedy {S C : Type} (P : ConsProblem S C)
    (Hdef : AllDefined P)
    (Hfeas : ∀ s, P.is_feasible s = (P.add_moves s).isEmpty) :
    ∀ (fuel : ℕ) (g : S) (lb : ℚ) (b : S) (r : S),
      P.add_moves g ≠ [] →
      greedy_construction P fuel g = some r →
      beamLoop P 1 fuel [(lb, g)] b none = some r := by
  intro fuel
  induction fuel with
  | zero =>
    intro g lb b r hne hg
    simp [greedy_construction] at hg
  | succ fuel ih =>
    intro g lb b r hne hg
    obtain ⟨c0, cs, hmoves⟩ : ∃ c0 cs, P.add_moves g = c0 :: cs := by
      cases hml : P.add_moves g with
      | nil => exact absurd hml hne
      | cons a l => exact ⟨a, l, rfl⟩
    obtain ⟨q0, hq0⟩ := Option.isSome_iff_exists.1 (Hdef g c0 (by rw [hmoves]; simp))
    obtain ⟨p0, ps, hp⟩ : ∃ p0 ps, (P.add_moves g).filterMap
        (fun c => (P.lower_bound_incr_add g c).map (fun q => (q, c))) = p0 :: ps := by
      have hmem : (q0, c0) ∈ (P.add_moves g).filterMap
          (fun c => (P.lower_bound_incr_add g c).map (fun q => (q, c))) := by
        rw [List.mem_filterMap]
        exact ⟨c0, by rw [hmoves]; simp, by rw [hq0]; rfl⟩
      cases hl : (P.add_moves g).filterMap
          (fun c => (P.lower_bound_incr_add g c).map (fun q => (q, c))) with
      | nil => rw [hl] at hmem; simp at hmem
      | cons a l => exact ⟨a, l, rfl⟩
    set m := ps.foldl (fun cur v => if v.1 < cur.1 then v else cur) p0 with hmdef
    -- unfold one greedy round
    rw [greedy_construction, hp] at hg
    simp only [minByFst, ← hmdef] at hg
    -- unfold one beam round
    rw [beamLoop, candidates_one P Hdef lb g p0 ps hp, ← hmdef]
    simp only [List.length_cons, List.length_nil]
    rw [if_neg (by norm_num)]
    simp only [evolve, List.map, List.foldl, beamUpdateBest]
    by_cases hterm : P.add_moves (P.add g m.2) = []
    · -- next state is terminal, hence feasible: the incumbent becomes it
      rw [Hfeas, hterm]
      simp only [List.isEmpty_nil, if_pos rfl]
      cases fuel with
      | zero => simp [greedy_construction] at hg
      | succ fuel2 =>
        rw [greedy_construction] at hg
        rw [show (P.add_moves (P.add g m.2)).filterMap
            (fun c => (P.lower_bound_incr_add (P.add g m.2) c).map (fun q => (q, c))) = [] by
          rw [hterm]; rfl] at hg
        simp only [minByFst] at hg
        rw [beamLoop, candidates_single P _ _ 1 (fun c hc => Hdef _ c hc)]
        rw [show (P.add_moves (P.add g m.2)).filterMap
            (fun c => (P.lower_bound_incr_add (P.add g m.2) c).map
              (fun q => (lb + m.1 + q, P.add g m.2, c))) = [] by
          rw [hterm]; rfl]
        simp only [List.foldl, List.length_nil, if_pos rfl]
        exact hg
    · -- next state still has moves: infeasible, incumbent unchanged
      rw [Hfeas]
      rw [if_neg (by simp [List.isEmpty_iff, hterm])]
      exact ih (P.add g m.2) (lb + m.1) b r hterm hg

/-- **C4** (amended): with all increments defined and totally ordered
without ties, *and* feasibility holding exactly at states with no
remaining add moves (so that the best-feasible tracking inside
`beam_search` can only ever select the final constructed solution),
`beam_search` with width 1 returns exactly the solution that
`greedy_construction` builds from the same input.  Without the
feasibility proviso the two differ (see the counterexample). -/
theorem beam_width_one_eq_greedy {S C : Type} (P : ConsProblem S C)
    (Hdef : AllDefined P) (Hties : NoTies P)
    (Hfeas : ∀ s, P.is_feasible s = (P.add_moves s).isEmpty)
    (Hobj : ∀ s, P.is_feasible s = false → P.objective s = none)
    (fuel : ℕ) (s0 r : S)
    (hg : greedy_construction P fuel s0 = some r) :
    beam_search P fuel s0 1 = some r := by
  rw [beam_search]
  cases hml : P.add_moves s0 with
  | nil =>
    cases fuel with
    | zero => simp [greedy_construction] at hg
    | succ fuel =>
      rw [greedy_construction] at hg
      rw [show (P.add_moves s0).filterMap
          (fun c => (P.lower_bound_incr_add s0 c).map (fun q => (q, c))) = [] by
        rw [hml]; rfl] at hg
      simp only [minByFst] at hg
      rw [beamLoop, candidates_single P _ _ 1 (fun c hc => Hdef _ c hc)]
      rw [show (P.add_moves s0).filterMap
          (fun c => (P.lower_bound_incr_add s0 c).map
            (fun q => (P.lower_bound s0 + q, s0, c))) = [] by
        rw [hml]; rfl]
      simp only [List.foldl, List.length_nil, if_pos rfl]
      exact hg
  | cons c0 cs =>
    have hne : P.add_moves s0 ≠ [] := by rw [hml]; simp
    have hobj : P.objective s0 = none := by
      apply Hobj
      rw [Hfeas, hml]
      rfl
    rw [hobj]
    exact beam1_loop_eq_greedy P Hdef Hfeas fuel s0 _ s0 r hne hg

/-- Witness instance for the amended C4: feasibility exactly at the
dead-end state `1`. -/
def P4w : ConsProblem ℕ Unit where
  objective := fun s => if s = 0 then none else some 5
  lower_bound := fun _ => 0
  is_feasible := fun s => !(s == 0)
  add_moves := fun s => if s = 0 then [()] else []
  lower_bound_incr_add := fun _ _ => some 1
  add := fun s _ => s + 1

/-- Witness for the amended C4 on the concrete instance `P4w`. -/
theorem beam_width_one_eq_greedy_witness :
    (AllDefined P4w ∧ NoTies P4w ∧
      (∀ s, P4w.is_feasible s = (P4w.add_moves s).isEmpty) ∧
      (∀ s, P4w.is_feasible s = false → P4w.objective s = none) ∧
      greedy_construction P4w 3 0 = some 1) ∧
    beam_search P4w 3 0 1 = some 1 := by
  have hdef : AllDefined P4w := by
    intro s c _
    simp [P4w]
  have hties : NoTies P4w := by
    intro s
    by_cases h : s = 0 <;> simp [P4w, h]
  have hfeas : ∀ s, P4w.is_feasible s = (P4w.add_moves s).isEmpty := by
    intro s
    by_cases h : s = 0 <;> simp [P4w, h]
  have hobj : ∀ s, P4w.is_feasible s = false → P4w.objective s = none := by
    intro s hs
    by_cases h : s = 0
    · simp [P4w, h]
    · simp [P4w, h] at hs
  exact ⟨⟨hdef, hties, hfeas, hobj, by decide⟩,
    beam_width_one_eq_greedy P4w hdef hties hfeas hobj 3 0 1 (by decide)⟩

/-! ## GRASP (`grasp.py`, claims C5 and C10)

`random.choice(RCL)` is modelled by an oracle `chooser : ℕ → ℕ` giving
the index drawn at the `r`-th call (reduced mod the list length);
`perf_counter() - start` is the elapsed-time oracle `clock` read once per
outer `while` check. -/

/-- Python `max(..., key=itemgetter(0))`: first pair attaining the
maximal first component. -/
def maxByFst {C : Type} (l : List (ℚ × C)) : Option (ℚ × C) :=
  match l with
  | [] => none
  | x :: xs => some (xs.foldl (fun acc p => if acc.1 < p.1 then p else acc) x)

/-- The comprehension `C = [(s.lower_bound_incr_add(c), c) for c in
s.add_moves()]`: `none` marks the `TypeError` that the subsequent
`min`/`max` comparisons raise when an increment is `None`. -/
def graspCands {S C : Type} (P : ConsProblem S C) (s : S) : Option (List (ℚ × C)) :=
  (P.add_moves s).mapM (fun c => (P.lower_bound_incr_add s c).map (fun q => (q, c)))

/-- The feasibility snapshot inside the repetition (`b, bobj`).  The
branch where a feasible solution has an undefined objective would raise
in Python (`None < bobj`); it keeps the accumulator here and is
unreachable under the contract. -/
def graspSnap {S C : Type} (P : ConsProblem S C) (s : S) (b : Option S) (bobj : Option ℚ) :
    Option S × Option ℚ :=
  if P.is_feasible s then
    match bobj, P.objective s with
    | none, o => (some s, o)
    | some bo, some o => if o < bo then (some s, some o) else (b, bobj)
    | some _, none => (b, bobj)
  else (b, bobj)

/-- The inner `while len(C) != 0` construction loop of one GRASP
repetition.  Returns the final constructed solution, the repetition-local
feasible snapshot, and the advanced random-draw counter; `none` models a
raised exception (undefined increment, empty RCL) or fuel exhaustion. -/
def graspInner {S C : Type} (P : ConsProblem S C) (alpha : ℚ) (chooser : ℕ → ℕ) :
    ℕ → S → Option S → Option ℚ → ℕ → Option (S × Option S × Option ℚ × ℕ)
  | 0, _, _, _, _ => none
  | fuel + 1, s, b, bobj, r =>
    match graspCands P s with
    | none => none
    | some [] => some (s, b, bobj, r)
    | some (p0 :: ps) =>
      let pmin := ps.foldl (fun acc p => if p.1 < acc.1 then p else acc) p0
      let pmax := ps.foldl (fun acc p => if acc.1 < p.1 then p else acc) p0
      let thresh := pmin.1 + alpha * (pmax.1 - pmin.1)
      let rcl := ((p0 :: ps).filter (fun p => p.1 ≤ thresh)).map (fun p => p.2)
      match rcl.get? (chooser r % rcl.length) with
      | none => none
      | some c =>
        let s2 := P.add s c
        let bb := graspSnap P s2 b bobj
        graspInner P alpha chooser fuel s2 bb.1 bb.2 (r + 1)

/-- The global-best update after a repetition (`if bestobj is None or
bobj < bestobj`).  A `bobj = None` with `b` set would raise in Python;
it keeps the accumulator here. -/
def graspBestUpdate {S : Type} (b : Option S) (bobj : Option ℚ)
    (best : Option S) (bestobj : Option ℚ) : Option S × Option ℚ :=
  match b with
  | none => (best, bestobj)
  | some _ =>
    match bestobj, bobj with
    | none, o => (b, o)
    | some bo, some o => if o < bo then (b, some o) else (best, bestobj)
    | some _, none => (best, bestobj)

/-- The outer budget loop of `grasp` (with `local_search = None`): one
clock read per repetition check, one full repetition per iteration. -/
def graspLoop {S C : Type} (P : ConsProblem S C) (alpha : ℚ) (chooser : ℕ → ℕ)
    (clock : ℕ → ℚ) (budget : ℚ) :
    ℕ → S → Option S → Option ℚ → ℕ → ℕ → Option (Option S)
  | 0, _, _, _, _, _ => none
  | fuel + 1, s0, best, bestobj, t, r =>
    if clock t < budget then
      let bb0 := if P.is_feasible s0 then ((some s0 : Option S), P.objective s0)
        else (none, none)
      match graspInner P alpha chooser fuel s0 bb0.1 bb0.2 r with
      | none => none
      | some (_, b, bobj, r2) =>
        let bu := graspBestUpdate b bobj best bestobj
        graspLoop P alpha chooser clock budget fuel s0 bu.1 bu.2 (t + 1) r2
    else some best

/-- `grasp.grasp`: starts with `best, bestobj = None, None`. -/
def grasp {S C : Type} (P : ConsProblem S C) (alpha : ℚ) (chooser : ℕ → ℕ)
    (clock : ℕ → ℚ) (budget : ℚ) (fuel : ℕ) (s0 : S) : Option (Option S) :=
  graspLoop P alpha chooser clock budget fuel s0 none none 0 0

/-- **C10**: whenever the budget is already exhausted at entry
(`budget ≤ 0`, elapsed time never negative), `grasp` runs no repetition
and returns `None` — even when the input solution is feasible. -/
theorem grasp_zero_budget_returns_none {S C : Type} (P : ConsProblem S C)
    (alpha : ℚ) (chooser : ℕ → ℕ) (clock : ℕ → ℚ) (budget : ℚ) (fuel : ℕ) (s0 : S)
    (hb : budget ≤ 0) (hclk : 0 ≤ clock 0) (hfuel : 0 < fuel) :
    grasp P alpha chooser clock budget fuel s0 = some none := by
  cases fuel with
  | zero => omega
  | succ fuel =>
    rw [grasp, graspLoop]
    rw [if_neg (by push_neg; linarith)]

/-- Witness for C10 on the trivially feasible instance `P4w` at state 1. -/
theorem grasp_zero_budget_returns_none_witness :
    ((0 : ℚ) ≤ 0 ∧ (0 : ℚ) ≤ 0 ∧ 0 < 2 ∧ P4w.is_feasible 1 = true) ∧
    grasp P4w 0 (fun _ => 0) (fun _ => 0) 0 2 1 = some none :=
  ⟨⟨le_refl 0, le_refl 0, by norm_num, by decide⟩,
    grasp_zero_budget_returns_none P4w 0 (fun _ => 0) (fun _ => 0) 0 2 1
      (le_refl 0) (le_refl 0) (by norm_num)⟩


/-! ### Claim C5: GRASP with `alpha = 0` versus greedy construction -/

theorem foldmin_fst_le_start {C : Type} (t : List (ℚ × C)) : ∀ v0 : ℚ × C,
    (t.foldl (fun acc p => if p.1 < acc.1 then p else acc) v0).1 ≤ v0.1 := by
  induction t with
  | nil => intro v0; exact le_refl _
  | cons h t ih =>
    intro v0
    simp only [List.foldl]
    by_cases hc : h.1 < v0.1
    · rw [if_pos hc]; exact le_trans (ih h) (le_of_lt hc)
    · rw [if_neg hc]; exact ih v0

/-- With pairwise-distinct keys, the `decr <= thresh` filter at
`thresh = cmin` keeps exactly the first minimum: the RCL is a
singleton. -/
theorem filter_min_singleton {C : Type} (ps : List (ℚ × C)) : ∀ p0 : ℚ × C,
    ((p0 :: ps).Pairwise (fun a b => a.1 ≠ b.1)) →
    (p0 :: ps).filter
        (fun p => p.1 ≤ (ps.foldl (fun acc p => if p.1 < acc.1 then p else acc) p0).1)
      = [ps.foldl (fun acc p => if p.1 < acc.1 then p else acc) p0] := by
  induction ps with
  | nil =>
    intro p0 _
    simp
  | cons h t ih =>
    intro p0 hpw
    rw [List.pairwise_cons] at hpw
    obtain ⟨hp0, hpw2⟩ := hpw
    rw [List.pairwise_cons] at hpw2
    obtain ⟨hh, hpwt⟩ := hpw2
    simp only [List.foldl]
    by_cases hch : h.1 < p0.1
    · -- h is the two-element minimum; p0 is filtered out
      simp only [if_pos hch]
      have hm_le : (t.foldl (fun acc p => if p.1 < acc.1 then p else acc) h).1 ≤ h.1 :=
        foldmin_fst_le_start t h
      have hpred0 : ¬ (p0.1 ≤ (t.foldl (fun acc p => if p.1 < acc.1 then p else acc) h).1) := by
        push_neg
        exact lt_of_le_of_lt hm_le hch
      rw [List.filter_cons_of_neg (by simpa using hpred0)]
      apply ih h
      rw [List.pairwise_cons]
      exact ⟨hh, hpwt⟩
    · -- p0 is the two-element minimum; h is filtered out
      simp only [if_neg hch]
      have hlt : p0.1 < h.1 := lt_of_le_of_ne (le_of_not_lt hch) (hp0 h (by simp))
      have hm_le : (t.foldl (fun acc p => if p.1 < acc.1 then p else acc) p0).1 ≤ p0.1 :=
        foldmin_fst_le_start t p0
      have hpredh : ¬ (h.1 ≤ (t.foldl (fun acc p => if p.1 < acc.1 then p else acc) p0).1) := by
        push_neg
        exact lt_of_le_of_lt hm_le hlt
      have hstep : (p0 :: h :: t).filter
          (fun p => p.1 ≤ (t.foldl (fun acc p => if p.1 < acc.1 then p else acc) p0).1)
          = (p0 :: t).filter
            (fun p => p.1 ≤ (t.foldl (fun acc p => if p.1 < acc.1 then p else acc) p0).1) := by
        by_cases hpred0 : p0.1 ≤ (t.foldl (fun acc p => if p.1 < acc.1 then p else acc) p0).1
        · rw [List.filter_cons_of_pos (by simpa using hpred0),
            List.filter_cons_of_neg (by simpa using hpredh),
            List.filter_cons_of_pos (by simpa using hpred0)]
        · rw [List.filter_cons_of_neg (by simpa using hpred0),
            List.filter_cons_of_neg (by simpa using hpredh),
            List.filter_cons_of_neg (by simpa using hpred0)]
      rw [hstep]
      apply ih p0
      rw [List.pairwise_cons]
      refine ⟨fun b hb => hp0 b (by simp [hb]), hpwt⟩

theorem mapM_eq_filterMap {C γ : Type} (f : C → Option γ) (l : List C)
    (h : ∀ c ∈ l, (f c).isSome) :
    l.mapM f = some (l.filterMap f) := by
  induction l with
  | nil => rfl
  | cons c cs ih =>
    obtain ⟨b, hb⟩ := Option.isSome_iff_exists.1 (h c (by simp))
    rw [List.mapM_cons, List.filterMap_cons, hb]
    rw [ih (fun c' hc' => h c' (by simp [hc']))]
    rfl

theorem graspCands_eq {S C : Type} (P : ConsProblem S C) (s : S)
    (h : ∀ c ∈ P.add_moves s, (P.lower_bound_incr_add s c).isSome) :
    graspCands P s = some ((P.add_moves s).filterMap
      (fun c => (P.lower_bound_incr_add s c).map (fun q => (q, c)))) :=
  mapM_eq_filterMap _ _ (fun c hc => by
    obtain ⟨q, hq⟩ := Option.isSome_iff_exists.1 (h c hc)
    rw [hq]
    rfl)

theorem pairs_map_fst {S C : Type} (P : ConsProblem S C) (s : S) :
    ((P.add_moves s).filterMap
        (fun c => (P.lower_bound_incr_add s c).map (fun q => (q, c)))).map Prod.fst
      = (P.add_moves s).filterMap (fun c => P.lower_bound_incr_add s c) := by
  rw [List.map_filterMap]
  congr 1
  funext c
  cases P.lower_bound_incr_add s c <;> rfl

/-- **C5**: with `alpha = 0`, all increments defined and no two candidate
increments ever tied, the restricted candidate list is always the
singleton first-minimum component, so one GRASP repetition is
deterministic — the constructed solution is independent of the random
oracle — and equals the solution `greedy_construction` builds from the
same input. -/
theorem grasp_alpha_zero_eq_greedy {S C : Type} (P : ConsProblem S C)
    (Hdef : AllDefined P) (Hties : NoTies P) :
    ∀ (fuel : ℕ) (chooser : ℕ → ℕ) (s : S) (b : Option S) (bobj : Option ℚ) (r : ℕ),
      (graspInner P 0 chooser fuel s b bobj r).map (fun x => x.1)
        = greedy_construction P fuel s := by
  intro fuel
  induction fuel with
  | zero => intro chooser s b bobj r; rfl
  | succ fuel ih =>
    intro chooser s b bobj r
    rw [graspInner, greedy_construction, graspCands_eq P s (fun c hc => Hdef s c hc)]
    cases hp : (P.add_moves s).filterMap
        (fun c => (P.lower_bound_incr_add s c).map (fun q => (q, c))) with
    | nil => simp [minByFst]
    | cons p0 ps =>
      have hpw : (p0 :: ps).Pairwise (fun a b => a.1 ≠ b.1) := by
        have hts := Hties s
        rw [← pairs_map_fst, hp] at hts
        exact (List.pairwise_map).1 hts
      simp only [zero_mul, add_zero, minByFst]
      rw [filter_min_singleton ps p0 hpw]
      simp only [List.map, List.length_cons, List.length_nil, Nat.zero_add, Nat.mod_one,
        List.get?_cons_zero]
      exact ih chooser _ _ _ _

/-- Witness for C5 on the concrete instance `P4w`. -/
theorem grasp_alpha_zero_eq_greedy_witness :
    (AllDefined P4w ∧ NoTies P4w) ∧
    (graspInner P4w 0 (fun _ => 0) 3 0 none none 0).map (fun x => x.1)
      = greedy_construction P4w 3 0 := by
  have hdef : AllDefined P4w := by
    intro s c _
    simp [P4w]
  have hties : NoTies P4w := by
    intro s
    by_cases h : s = 0 <;> simp [P4w, h]
  exact ⟨⟨hdef, hties⟩,
    grasp_alpha_zero_eq_greedy P4w hdef hties 3 (fun _ => 0) 0 none none 0⟩

/-! ## MMAS pheromone update (`mmas.py`, claim C2)

The update phase (source lines 158-195) is embedded as a function of the
state it reads: the pheromone table, the parameters `a` and `rho`, the
iteration's feasible ants (component identities and objective of each),
the global best (its components and `bestobj`; `None` would raise a
`TypeError` at `1.0 / bestobj` before any branch runs), the drawn
comparison `random.random() > globalratio` (`coin`), and whether the
stagnation counter reached `nrestart` (`restart`). -/

/-- An ant as seen by the pheromone-update phase: its component
identities (`components()`) and its objective value. -/
structure Ant (κ : Type) where
  comps : List κ
  obj : ℚ

/-- The `defaultdict` pheromone table: materialized keys, their values,
and the default `tau0` returned for identities not yet observed. -/
structure PherTable (κ : Type) [DecidableEq κ] where
  keys : Finset κ
  val : κ → ℚ
  tau0 : ℚ

/-- `max(taumin, min(taumax, x))`. -/
def clamp (lo hi x : ℚ) : ℚ := max lo (min hi x)

/-- The reinforcement loop `for comp in components(): ...` shared by the
iteration-best and global-best branches: new identities start from
`tau0 + amount`, existing ones accumulate, all capped at `taumax`. -/
def mmasReinforce {κ : Type} [DecidableEq κ] (taumax amount : ℚ) :
    PherTable κ → List κ → PherTable κ
  | tab, [] => tab
  | tab, cid :: rest =>
    let tab2 : PherTable κ :=
      if cid ∈ tab.keys then
        { tab with
          val := fun k => if k = cid then min taumax (tab.val cid + amount) else tab.val k }
      else
        { tab with
          keys := insert cid tab.keys,
          val := fun k => if k = cid then min taumax (tab.tau0 + amount) else tab.val k }
    mmasReinforce taumax amount tab2 rest

/-- One `mmas` pheromone-update phase.  In the non-restart branch the
default and every existing trail are evaporated and clamped to
`[taumin, taumax]`, then either the iteration-best feasible ant
(`ants` nonempty and the coin favours it) or the global-best ant
reinforces; in the restart branch all trails are reset to `taumax`.
Returns the new table with the recomputed `taumax` and `taumin`. -/
def mmas_update {κ : Type} [DecidableEq κ] (tab : PherTable κ) (a rho : ℚ)
    (best : Option (Ant κ)) (ants : List (Ant κ)) (coin : Bool) (restart : Bool) :
    Option (PherTable κ × ℚ × ℚ) :=
  match best with
  | none => none
  | some gb =>
    if restart then
      let taumax := 1 / gb.obj
      let taumin := taumax / a
      some ({ keys := tab.keys,
              val := fun k => if k ∈ tab.keys then taumax else tab.val k,
              tau0 := taumax }, taumax, taumin)
    else
      let taumax := 1 / gb.obj
      let taumin := taumax / a
      let tau1 := clamp taumin taumax ((1 - rho) * tab.tau0)
      let tab1 : PherTable κ :=
        { keys := tab.keys,
          val := fun k => if k ∈ tab.keys then clamp taumin taumax ((1 - rho) * tab.val k)
            else tab.val k,
          tau0 := tau1 }
      if 0 < ants.length ∧ coin = true then
        let bi := argmin (ants.map (fun ant => ant.obj))
        let b := ants.getD bi ⟨[], 1⟩
        some (mmasReinforce taumax (1 / b.obj) tab1 b.comps, taumax, taumin)
      else
        some (mmasReinforce taumax (1 / gb.obj) tab1 gb.comps, taumax, taumin)

theorem clamp_bounds (lo hi x : ℚ) (h : lo ≤ hi) :
    lo ≤ clamp lo hi x ∧ clamp lo hi x ≤ hi :=
  ⟨le_max_left _ _, max_le h (min_le_left _ _)⟩

theorem argmin_fold_invariant (xs : List ℚ) : ∀ acc : ℕ × ℚ × ℕ, acc.1 < acc.2.2 →
    (xs.foldl (fun (acc : ℕ × ℚ × ℕ) v =>
        if v < acc.2.1 then (acc.2.2, v, acc.2.2 + 1) else (acc.1, acc.2.1, acc.2.2 + 1))
      acc).1
      < (xs.foldl (fun (acc : ℕ × ℚ × ℕ) v =>
        if v < acc.2.1 then (acc.2.2, v, acc.2.2 + 1) else (acc.1, acc.2.1, acc.2.2 + 1))
      acc).2.2 := by
  induction xs with
  | nil => intro acc h; exact h
  | cons v vs ih =>
    intro acc h
    simp only [List.foldl]
    by_cases hc : v < acc.2.1
    · rw [if_pos hc]
      exact ih _ (by simp)
    · rw [if_neg hc]
      exact ih _ (by simp; omega)

theorem argmin_fold_count (xs : List ℚ) : ∀ acc : ℕ × ℚ × ℕ,
    (xs.foldl (fun (acc : ℕ × ℚ × ℕ) v =>
        if v < acc.2.1 then (acc.2.2, v, acc.2.2 + 1) else (acc.1, acc.2.1, acc.2.2 + 1))
      acc).2.2 = acc.2.2 + xs.length := by
  induction xs with
  | nil => intro acc; simp
  | cons v vs ih =>
    intro acc
    simp only [List.foldl]
    by_cases hc : v < acc.2.1
    · rw [if_pos hc, ih]
      simp
      omega
    · rw [if_neg hc, ih]
      simp
      omega

theorem argmin_lt_length (l : List ℚ) (hl : l ≠ []) : argmin l < l.length := by
  cases l with
  | nil => exact absurd rfl hl
  | cons x xs =>
    rw [argmin]
    have h1 := argmin_fold_invariant xs (0, x, 1) (by simp)
    have h2 := argmin_fold_count xs (0, x, 1)
    norm_num at h2
    simp only [List.length_cons]
    omega

theorem mmasReinforce_bounds {κ : Type} [DecidableEq κ] (tmax tmin amount : ℚ)
    (hminmax : tmin ≤ tmax) (hamt : 0 ≤ amount) (comps : List κ) :
    ∀ tab : PherTable κ,
      tmin ≤ tab.tau0 → tab.tau0 ≤ tmax →
      (∀ k ∈ tab.keys, tmin ≤ tab.val k ∧ tab.val k ≤ tmax) →
      tmin ≤ (mmasReinforce tmax amount tab comps).tau0 ∧
      (mmasReinforce tmax amount tab comps).tau0 ≤ tmax ∧
      (∀ k ∈ (mmasReinforce tmax amount tab comps).keys,
        tmin ≤ (mmasReinforce tmax amount tab comps).val k ∧
        (mmasReinforce tmax amount tab comps).val k ≤ tmax) := by
  induction comps with
  | nil =>
    intro tab h1 h2 h3
    exact ⟨h1, h2, h3⟩
  | cons cid rest ih =>
    intro tab h1 h2 h3
    rw [mmasReinforce]
    by_cases hmem : cid ∈ tab.keys
    · rw [if_pos hmem]
      apply ih
      · exact h1
      · exact h2
      · intro k hk
        by_cases hkc : k = cid
        · simp only [hkc, if_pos rfl]
          constructor
          · exact le_min hminmax
              (le_trans (h3 cid hmem).1 (le_add_of_nonneg_right hamt))
          · exact min_le_left _ _
        · simp only [if_neg hkc]
          exact h3 k hk
    · rw [if_neg hmem]
      apply ih
      · exact h1
      · exact h2
      · intro k hk
        by_cases hkc : k = cid
        · simp only [hkc, if_pos rfl]
          constructor
          · exact le_min hminmax (le_trans h1 (le_add_of_nonneg_right hamt))
          · exact min_le_left _ _
        · simp only [if_neg hkc]
          rcases Finset.mem_insert.1 hk with he | hm
          · exact absurd he hkc
          · exact h3 k hm

/-- **C2**: immediately after every completed MMAS pheromone-update
phase (with positive objectives and `a ≥ 1`), every materialized trail
value and the default value for unseen component identities lie in
`[taumin, taumax]`, where `taumax = 1/bestObjective` and
`taumin = taumax/a` as recomputed in that phase. -/
theorem mmas_update_in_bounds {κ : Type} [DecidableEq κ] (tab : PherTable κ)
    (a rho : ℚ) (gb : Ant κ) (ants : List (Ant κ)) (coin restart : Bool)
    (tab2 : PherTable κ) (tmax tmin : ℚ)
    (ha : 1 ≤ a) (hgb : 0 < gb.obj) (hants : ∀ ant ∈ ants, 0 < ant.obj)
    (hrun : mmas_update tab a rho (some gb) ants coin restart = some (tab2, tmax, tmin)) :
    tmax = 1 / gb.obj ∧ tmin = tmax / a ∧
    tmin ≤ tab2.tau0 ∧ tab2.tau0 ≤ tmax ∧
    ∀ k ∈ tab2.keys, tmin ≤ tab2.val k ∧ tab2.val k ≤ tmax := by
  have hmax : 0 < 1 / gb.obj := by positivity
  have hmm : (1 / gb.obj) / a ≤ 1 / gb.obj := div_le_self (le_of_lt hmax) ha
  rw [mmas_update] at hrun
  by_cases hres : restart
  · rw [if_pos hres] at hrun
    simp only [Option.some.injEq, Prod.mk.injEq] at hrun
    obtain ⟨htab, hmaxeq, hmineq⟩ := hrun
    subst hmaxeq
    subst hmineq
    subst htab
    refine ⟨rfl, rfl, hmm, le_refl _, ?_⟩
    intro k hk
    simp only [if_pos hk]
    exact ⟨hmm, le_refl _⟩
  · rw [if_neg hres] at hrun
    by_cases hib : 0 < ants.length ∧ coin = true
    · rw [if_pos hib] at hrun
      simp only [Option.some.injEq, Prod.mk.injEq] at hrun
      obtain ⟨htab, hmaxeq, hmineq⟩ := hrun
      subst hmaxeq
      subst hmineq
      refine ⟨rfl, rfl, ?_⟩
      -- the reinforcing iteration-best ant is a member of `ants`
      have hne : ants ≠ [] := by
        intro h0
        rw [h0] at hib
        simp at hib
      have hbi : argmin (ants.map (fun ant => ant.obj)) < ants.length := by
        have := argmin_lt_length (ants.map (fun ant => ant.obj))
          (by simpa using hne)
        simpa using this
      have hmem : ants.getD (argmin (ants.map (fun ant => ant.obj))) ⟨[], 1⟩ ∈ ants := by
        rw [List.getD_eq_getElem _ _ hbi]
        exact List.getElem_mem _
      have hbobj : 0 < (ants.getD (argmin (ants.map (fun ant => ant.obj))) ⟨[], 1⟩).obj :=
        hants _ hmem
      rw [← htab]
      have hb := mmasReinforce_bounds (1 / gb.obj) ((1 / gb.obj) / a)
        (1 / (ants.getD (argmin (ants.map (fun ant => ant.obj))) ⟨[], 1⟩).obj)
        hmm (by positivity)
        (ants.getD (argmin (ants.map (fun ant => ant.obj))) ⟨[], 1⟩).comps
        { keys := tab.keys,
          val := fun k => if k ∈ tab.keys
            then clamp ((1 / gb.obj) / a) (1 / gb.obj) ((1 - rho) * tab.val k)
            else tab.val k,
          tau0 := clamp ((1 / gb.obj) / a) (1 / gb.obj) ((1 - rho) * tab.tau0) }
        (clamp_bounds _ _ _ hmm).1 (clamp_bounds _ _ _ hmm).2
        (fun k hk => by
          simp only [if_pos hk]
          exact clamp_bounds _ _ _ hmm)
      exact ⟨hb.1, hb.2.1, hb.2.2⟩
    · rw [if_neg hib] at hrun
      simp only [Option.some.injEq, Prod.mk.injEq] at hrun
      obtain ⟨htab, hmaxeq, hmineq⟩ := hrun
      subst hmaxeq
      subst hmineq
      refine ⟨rfl, rfl, ?_⟩
      rw [← htab]
      have hb := mmasReinforce_bounds (1 / gb.obj) ((1 / gb.obj) / a) (1 / gb.obj)
        hmm (le_of_lt hmax) gb.comps
        { keys := tab.keys,
          val := fun k => if k ∈ tab.keys
            then clamp ((1 / gb.obj) / a) (1 / gb.obj) ((1 - rho) * tab.val k)
            else tab.val k,
          tau0 := clamp ((1 / gb.obj) / a) (1 / gb.obj) ((1 - rho) * tab.tau0) }
        (clamp_bounds _ _ _ hmm).1 (clamp_bounds _ _ _ hmm).2
        (fun k hk => by
          simp only [if_pos hk]
          exact clamp_bounds _ _ _ hmm)
      exact ⟨hb.1, hb.2.1, hb.2.2⟩

/-- Witness for C2 on a concrete one-ant update. -/
theorem mmas_update_in_bounds_witness :
    ((1:ℚ) ≤ 5 ∧ (0:ℚ) < 2 ∧ ∀ ant ∈ [(⟨[1], 3⟩ : Ant ℕ)], 0 < ant.obj) ∧
    ∃ tab2 tmax tmin,
      mmas_update (⟨∅, fun _ => 1, 1⟩ : PherTable ℕ) 5 (1/2) (some ⟨[0], 2⟩)
        [⟨[1], 3⟩] true false = some (tab2, tmax, tmin) ∧
      tmax = 1 / (2:ℚ) ∧ tmin = tmax / 5 ∧ tmin ≤ tab2.tau0 ∧ tab2.tau0 ≤ tmax ∧
      ∀ k ∈ tab2.keys, tmin ≤ tab2.val k ∧ tab2.val k ≤ tmax := by
  have hants : ∀ ant ∈ [(⟨[1], 3⟩ : Ant ℕ)], 0 < ant.obj := by
    intro ant h
    simp only [List.mem_singleton] at h
    rw [h]
    norm_num
  refine ⟨⟨by norm_num, by norm_num, hants⟩, ?_⟩
  refine ⟨_, _, _, rfl, ?_⟩
  exact mmas_update_in_bounds _ 5 (1/2) _ _ true false _ _ _
    (by norm_num) (by norm_num) hants rfl

/-! ## Ant construction (`construct_ant` in `ant_system.py` and
`mmas.py`, claims C7 and C8)

`random.choice`/`random.choices` are modelled by an index oracle
`rand : ℕ → ℕ` (reduced mod the candidate-list length; for the weighted
draw the oracle picks the sampled support index). -/

/-- The capability set `construct_ant` uses: addable components with
identities, increments and in-place `add`. -/
structure AntProblem (S C κ : Type) where
  add_moves : S → List C
  cid : C → κ
  lower_bound_incr_add : S → C → Option ℚ
  add : S → C → S

/-- The scan `for c in solution.add_moves()` of `construct_ant`:
partitions components into the numerically-zero-increment list `cszero`
and the rest `cs` with pheromone weights
`tau[cid]**alpha * (1/lbincr)**beta`, and raises
`ValueError("lbincr cannot be None")` on an undefined increment.  The
float exponents (defaults `alpha=1.0`, `beta=3.0`) are embedded as
naturals so the weights stay rational. -/
def antScan {S C κ : Type} (P : AntProblem S C κ) (tau : κ → ℚ) (alpha beta : ℕ)
    (s : S) : Except String (List C × List C × List ℚ) :=
  (P.add_moves s).foldlM (fun acc c =>
    match P.lower_bound_incr_add s c with
    | none => .error "lbincr cannot be None"
    | some lbincr =>
      if isclose lbincr 0 then Except.ok (acc.1, acc.2.1 ++ [c], acc.2.2)
      else Except.ok (acc.1 ++ [c], acc.2.1,
        acc.2.2 ++ [tau (P.cid c) ^ alpha * (1 / lbincr) ^ beta]))
    ([], [], [])

/-- The selection after the scan: zero-increment components take
absolute priority (`random.choice(cszero)`); otherwise weighted
(`random.choices(cs, p)`, when the weights have positive sum) or uniform
choice over `cs`; `none` models `break`. -/
def antSelect {C : Type} (cs cszero : List C) (p : List ℚ) (rand : ℕ → ℕ) (r : ℕ) :
    Option C :=
  if 0 < cszero.length then
    cszero.get? (rand r % cszero.length)
  else if 0 < cs.length then
    if 0 < p.sum then cs.get? (rand r % cs.length)
    else cs.get? (rand r % cs.length)
  else none

/-- The `while True` loop of `construct_ant`. -/
def construct_ant {S C κ : Type} (P : AntProblem S C κ) (alpha beta : ℕ) (tau : κ → ℚ)
    (rand : ℕ → ℕ) : ℕ → S → ℕ → Except String S
  | 0, _, _ => .error "out of fuel"
  | fuel + 1, s, r =>
    match antScan P tau alpha beta s with
    | .error e => .error e
    | .ok (cs, cszero, p) =>
      match antSelect cs cszero p rand r with
      | none => .ok s
      | some best => construct_ant P alpha beta tau rand fuel (P.add s best) (r + 1)

/-- Whether a component's increment is defined and numerically close to
zero. -/
def antZero {S C κ : Type} (P : AntProblem S C κ) (s : S) (c : C) : Bool :=
  match P.lower_bound_incr_add s c with
  | some q => isclose q 0
  | none => false

theorem antScanFold_error {S C κ : Type} (P : AntProblem S C κ) (tau : κ → ℚ)
    (alpha beta : ℕ) (s : S) (l : List C) : ∀ acc : List C × List C × List ℚ,
    (∃ c ∈ l, P.lower_bound_incr_add s c = none) →
    (l.foldlM (fun acc c =>
      match P.lower_bound_incr_add s c with
      | none => Except.error "lbincr cannot be None"
      | some lbincr =>
        if isclose lbincr 0 then Except.ok (acc.1, acc.2.1 ++ [c], acc.2.2)
        else Except.ok (acc.1 ++ [c], acc.2.1,
          acc.2.2 ++ [tau (P.cid c) ^ alpha * (1 / lbincr) ^ beta])) acc
      : Except String (List C × List C × List ℚ))
      = .error "lbincr cannot be None" := by
  induction l with
  | nil =>
    intro acc h
    simp at h
  | cons c cs ih =>
    intro acc h
    rw [List.foldlM_cons]
    cases hc : P.lower_bound_incr_add s c with
    | none =>
      simp only [hc]
      rfl
    | some q =>
      have h2 : ∃ c' ∈ cs, P.lower_bound_incr_add s c' = none := by
        obtain ⟨c', hc', hn⟩ := h
        rcases List.mem_cons.1 hc' with he | ht
        · rw [he] at hn
          rw [hn] at hc
          cases hc
        · exact ⟨c', ht, hn⟩
      simp only [hc]
      by_cases hcl : isclose q 0
      · simp only [if_pos hcl]
        exact ih _ h2
      · simp only [if_neg hcl]
        exact ih _ h2

theorem antScan_error_of_none {S C κ : Type} (P : AntProblem S C κ) (tau : κ → ℚ)
    (alpha beta : ℕ) (s : S)
    (h : ∃ c ∈ P.add_moves s, P.lower_bound_incr_add s c = none) :
    antScan P tau alpha beta s = .error "lbincr cannot be None" := by
  rw [antScan]
  exact antScanFold_error P tau alpha beta s (P.add_moves s) ([], [], []) h

/-- **C7**: if `lower_bound_incr_add` returns `None` for any addable
component, `construct_ant` raises `ValueError("lbincr cannot be None")`
to its caller — it neither substitutes a default nor skips the
component. -/
theorem construct_ant_raises_on_undefined {S C κ : Type} (P : AntProblem S C κ)
    (alpha beta : ℕ) (tau : κ → ℚ) (rand : ℕ → ℕ) (fuel : ℕ) (s : S) (r : ℕ)
    (hfuel : 0 < fuel)
    (h : ∃ c ∈ P.add_moves s, P.lower_bound_incr_add s c = none) :
    construct_ant P alpha beta tau rand fuel s r = .error "lbincr cannot be None" := by
  cases fuel with
  | zero => omega
  | succ fuel =>
    rw [construct_ant, antScan_error_of_none P tau alpha beta s h]

theorem antScanFold_ok {S C κ : Type} (P : AntProblem S C κ) (tau : κ → ℚ)
    (alpha beta : ℕ) (s : S) (l : List C) : ∀ acc : List C × List C × List ℚ,
    (∀ c ∈ l, (P.lower_bound_incr_add s c).isSome) →
    ∃ cs p, (l.foldlM (fun acc c =>
      match P.lower_bound_incr_add s c with
      | none => Except.error "lbincr cannot be None"
      | some lbincr =>
        if isclose lbincr 0 then Except.ok (acc.1, acc.2.1 ++ [c], acc.2.2)
        else Except.ok (acc.1 ++ [c], acc.2.1,
          acc.2.2 ++ [tau (P.cid c) ^ alpha * (1 / lbincr) ^ beta])) acc
      : Except String (List C × List C × List ℚ))
      = .ok (cs, acc.2.1 ++ l.filter (antZero P s), p) := by
  induction l with
  | nil =>
    intro acc _
    refine ⟨acc.1, acc.2.2, ?_⟩
    rw [List.foldlM_nil,
      show (pure acc : Except String (List C × List C × List ℚ)) = Except.ok acc from rfl]
    simp
  | cons c cs ih =>
    intro acc hdef
    obtain ⟨q, hq⟩ := Option.isSome_iff_exists.1 (hdef c (by simp))
    have hz : antZero P s c = isclose q 0 := by
      rw [antZero, hq]
    rw [List.foldlM_cons]
    simp only [hq]
    by_cases hcl : isclose q 0
    · simp only [if_pos hcl]
      obtain ⟨cs2, p2, hrec⟩ := ih (acc.1, acc.2.1 ++ [c], acc.2.2)
        (fun c' hc' => hdef c' (by simp [hc']))
      refine ⟨cs2, p2, ?_⟩
      have hfc : (c :: cs).filter (antZero P s) = c :: cs.filter (antZero P s) := by
        rw [List.filter_cons, if_pos (by rw [hz]; exact hcl)]
      rw [hfc]
      rw [show acc.2.1 ++ c :: List.filter (antZero P s) cs
        = (acc.2.1 ++ [c]) ++ List.filter (antZero P s) cs by simp]
      exact hrec
    · simp only [if_neg hcl]
      obtain ⟨cs2, p2, hrec⟩ := ih
        (acc.1 ++ [c], acc.2.1, acc.2.2 ++ [tau (P.cid c) ^ alpha * (1 / q) ^ beta])
        (fun c' hc' => hdef c' (by simp [hc']))
      refine ⟨cs2, p2, ?_⟩
      have hfc : (c :: cs).filter (antZero P s) = cs.filter (antZero P s) := by
        rw [List.filter_cons, if_neg (by rw [hz]; exact hcl)]
      rw [hfc]
      exact hrec

/-- **C8**: whenever the set of addable components with
numerically-zero increment is nonempty, the same component — a member of
that set — is selected for every pheromone table `tau`. -/
theorem construct_ant_zero_priority {S C κ : Type} (P : AntProblem S C κ)
    (alpha beta : ℕ) (rand : ℕ → ℕ) (r : ℕ) (s : S)
    (hdef : ∀ c ∈ P.add_moves s, (P.lower_bound_incr_add s c).isSome)
    (hz : (P.add_moves s).filter (antZero P s) ≠ []) :
    ∃ c ∈ (P.add_moves s).filter (antZero P s),
      ∀ tau : κ → ℚ, ∃ cs p,
        antScan P tau alpha beta s
            = Except.ok (cs, (P.add_moves s).filter (antZero P s), p) ∧
        antSelect cs ((P.add_moves s).filter (antZero P s)) p rand r = some c ∧
        ∀ fuel : ℕ, construct_ant P alpha beta tau rand (fuel + 1) s r
          = construct_ant P alpha beta tau rand fuel (P.add s c) (r + 1) := by
  set z := (P.add_moves s).filter (antZero P s) with hzdef
  have hlen : 0 < z.length := List.length_pos.2 hz
  have hidx : rand r % z.length < z.length := Nat.mod_lt _ hlen
  refine ⟨z.get ⟨rand r % z.length, hidx⟩, List.get_mem _ _ _, ?_⟩
  intro tau
  obtain ⟨cs, p, hscan⟩ := antScanFold_ok P tau alpha beta s (P.add_moves s) ([], [], []) hdef
  rw [List.nil_append] at hscan
  refine ⟨cs, p, ?_, ?_, ?_⟩
  · rw [antScan]
    exact hscan
  · rw [antSelect, if_pos hlen, List.get?_eq_get hidx]
  · intro fuel
    have hsel : antSelect cs z p rand r = some (z.get ⟨rand r % z.length, hidx⟩) := by
      rw [antSelect, if_pos hlen, List.get?_eq_get hidx]
    rw [construct_ant]
    rw [show antScan P tau alpha beta s
      = Except.ok (cs, z, p) by rw [antScan]; exact hscan]
    simp only [hsel]

def PA7 : AntProblem ℕ Unit ℕ where
  add_moves := fun s => if s = 0 then [()] else []
  cid := fun _ => 0
  lower_bound_incr_add := fun _ _ => none
  add := fun s _ => s + 1

/-- Witness for C7 on a concrete instance whose only component has an
undefined increment. -/
theorem construct_ant_raises_on_undefined_witness :
    (0 < 1 ∧ ∃ c ∈ PA7.add_moves 0, PA7.lower_bound_incr_add 0 c = none) ∧
    construct_ant PA7 1 3 (fun _ => 1) (fun _ => 0) 1 0 0
      = .error "lbincr cannot be None" := by
  have hex : ∃ c ∈ PA7.add_moves 0, PA7.lower_bound_incr_add 0 c = none := by
    refine ⟨(), ?_, rfl⟩
    simp [PA7]
  exact ⟨⟨by norm_num, hex⟩,
    construct_ant_raises_on_undefined PA7 1 3 (fun _ => 1) (fun _ => 0) 1 0 0
      (by norm_num) hex⟩

def PA8 : AntProblem ℕ ℕ ℕ where
  add_moves := fun s => if s = 0 then [0, 1] else []
  cid := fun c => c
  lower_bound_incr_add := fun _ c => if c = 0 then some 0 else some 1
  add := fun s _ => s + 1

/-- Witness for C8 on a concrete two-component instance. -/
theorem construct_ant_zero_priority_witness :
    ((∀ c ∈ PA8.add_moves 0, (PA8.lower_bound_incr_add 0 c).isSome) ∧
      (PA8.add_moves 0).filter (antZero PA8 0) ≠ []) ∧
    ∃ c ∈ (PA8.add_moves 0).filter (antZero PA8 0),
      ∀ tau : ℕ → ℚ, ∃ cs p,
        antScan PA8 tau 1 3 0
            = Except.ok (cs, (PA8.add_moves 0).filter (antZero PA8 0), p) ∧
        antSelect cs ((PA8.add_moves 0).filter (antZero PA8 0)) p (fun _ => 0) 0 = some c ∧
        ∀ fuel : ℕ, construct_ant PA8 1 3 tau (fun _ => 0) (fuel + 1) 0 0
          = construct_ant PA8 1 3 tau (fun _ => 0) fuel (PA8.add 0 c) (0 + 1) := by
  have hdef : ∀ c ∈ PA8.add_moves 0, (PA8.lower_bound_incr_add 0 c).isSome := by
    intro c hc
    by_cases h : c = 0 <;> simp [PA8, h]
  have hz : (PA8.add_moves 0).filter (antZero PA8 0) ≠ [] := by decide
  exact ⟨⟨hdef, hz⟩, construct_ant_zero_priority PA8 1 3 (fun _ => 0) 0 0 hdef hz⟩

/-! ## Local search (`best_improvement.py` and `ils.py`, claims C9 and C6)

The local-search Solution protocol as pure functions.  The casts in the
sources assert that `objective` and `objective_incr_local` are defined
where used, so they are total here; `random_local_moves_wor` and
`perturb` take the random-draw counter as an extra argument. -/
structure LSProblem (S M : Type) where
  objective : S → ℚ
  local_moves : S → List M
  random_local_moves_wor : S → ℕ → List M
  objective_incr_local : S → M → ℚ
  step : S → M → S
  perturb : S → ℕ → ℕ → S

/-- The scan `for move in solution.local_moves()` of `best_improvement`:
carries `(best_incr, best_move)`, updating on a strict tolerance-checked
improvement, and reads the clock after every move (a `break` on budget
expiry ends the scan but keeps the accumulator). -/
def biScan {S M : Type} (P : LSProblem S M) (clock : ℕ → ℚ) (budget : ℚ) (s : S) :
    List M → ℚ → Option M → ℕ → ℚ × Option M × ℕ
  | [], bi, bm, t => (bi, bm, t)
  | mv :: rest, bi, bm, t =>
    let delta := P.objective_incr_local s mv
    let upd := if delta < bi ∧ ¬ (isclose delta bi) then (delta, some mv) else (bi, bm)
    if budget ≤ clock t then (upd.1, upd.2, t + 1)
    else biScan P clock budget s rest upd.1 upd.2 (t + 1)

/-- `best_improvement.best_improvement`: scan, apply the best improving
move if any, else stop; re-check the budget each round. -/
def best_improvement {S M : Type} (P : LSProblem S M) (clock : ℕ → ℚ) (budget : ℚ) :
    ℕ → S → ℕ → Option S
  | 0, _, _ => none
  | fuel + 1, s, t =>
    if clock t < budget then
      match (biScan P clock budget s (P.local_moves s) 0 none (t + 1)).2.1 with
      | some mv =>
        best_improvement P clock budget fuel (P.step s mv)
          (biScan P clock budget s (P.local_moves s) 0 none (t + 1)).2.2
      | none => some s
    else some s

/-- `s` is a local optimum for the scan: no move strictly improves
beyond the tolerance. -/
def isLocalOpt {S M : Type} (P : LSProblem S M) (s : S) : Prop :=
  ∀ mv ∈ P.local_moves s,
    ¬ (P.objective_incr_local s mv < 0 ∧ ¬ (isclose (P.objective_incr_local s mv) 0))

theorem biScan_none_of_no_improving {S M : Type} (P : LSProblem S M) (s : S)
    (l : List M)
    (h : ∀ mv ∈ l,
      ¬ (P.objective_incr_local s mv < 0 ∧ ¬ (isclose (P.objective_incr_local s mv) 0))) :
    ∀ (clock : ℕ → ℚ) (budget : ℚ) (t : ℕ),
      (biScan P clock budget s l 0 none t).2.1 = none := by
  induction l with
  | nil =>
    intro clock budget t
    rfl
  | cons mv rest ih =>
    intro clock budget t
    have hmv := h mv (by simp)
    simp only [biScan]
    rw [if_neg hmv]
    by_cases hb : budget ≤ clock t
    · rw [if_pos hb]
    · rw [if_neg hb]
      exact ih (fun mv2 hmv2 => h mv2 (by simp [hmv2])) clock budget (t + 1)

theorem biScan_some_stays {S M : Type} (P : LSProblem S M) (clock : ℕ → ℚ)
    (budget : ℚ) (s : S) (l : List M) : ∀ (bi : ℚ) (mv : M) (t : ℕ),
    (biScan P clock budget s l bi (some mv) t).2.1.isSome := by
  induction l with
  | nil => intro bi mv t; rfl
  | cons mv2 rest ih =>
    intro bi mv t
    simp only [biScan]
    by_cases hc : P.objective_incr_local s mv2 < bi ∧
        ¬ (isclose (P.objective_incr_local s mv2) bi)
    · rw [if_pos hc]
      by_cases hb : budget ≤ clock t
      · rw [if_pos hb]
        rfl
      · rw [if_neg hb]
        exact ih _ _ _
    · rw [if_neg hc]
      by_cases hb : budget ≤ clock t
      · rw [if_pos hb]
        rfl
      · rw [if_neg hb]
        exact ih _ _ _

theorem biScan_none_imp {S M : Type} (P : LSProblem S M) (clock : ℕ → ℚ)
    (budget : ℚ) (s : S) (hclk : ∀ i, clock i < budget) (l : List M) : ∀ t : ℕ,
    (biScan P clock budget s l 0 none t).2.1 = none →
    ∀ mv ∈ l,
      ¬ (P.objective_incr_local s mv < 0 ∧ ¬ (isclose (P.objective_incr_local s mv) 0)) := by
  induction l with
  | nil =>
    intro t _ mv hmv
    simp at hmv
  | cons mv2 rest ih =>
    intro t hnone mv hmv
    rw [biScan] at hnone
    have hb : ¬ (budget ≤ clock t) := not_le.2 (hclk t)
    by_cases hc : P.objective_incr_local s mv2 < 0 ∧
        ¬ (isclose (P.objective_incr_local s mv2) 0)
    · rw [if_pos hc, if_neg hb] at hnone
      have := biScan_some_stays P clock budget s rest
        (P.objective_incr_local s mv2) mv2 (t + 1)
      rw [hnone] at this
      cases this
    · rw [if_neg hc, if_neg hb] at hnone
      rcases List.mem_cons.1 hmv with he | ht
      · rw [he]
        exact hc
      · exact ih (t + 1) hnone mv ht

theorem best_improvement_ends_local_opt {S M : Type} (P : LSProblem S M)
    (clock : ℕ → ℚ) (budget : ℚ) (hclk : ∀ i, clock i < budget) :
    ∀ (fuel : ℕ) (s s1 : S) (t : ℕ),
      best_improvement P clock budget fuel s t = some s1 → isLocalOpt P s1 := by
  intro fuel
  induction fuel with
  | zero =>
    intro s s1 t h
    simp [best_improvement] at h
  | succ fuel ih =>
    intro s s1 t h
    rw [best_improvement, if_pos (hclk t)] at h
    cases hbm : (biScan P clock budget s (P.local_moves s) 0 none (t + 1)).2.1 with
    | some mv =>
      rw [hbm] at h
      exact ih _ _ _ h
    | none =>
      rw [hbm] at h
      simp only [Option.some.injEq] at h
      rw [← h]
      intro mv hmv
      exact biScan_none_imp P clock budget s hclk (P.local_moves s) (t + 1) hbm mv hmv

/-- **C9**: if a `best_improvement` run under a budget that never expires
terminates (necessarily at a local optimum), running `best_improvement`
again on its output — with any budget and clock — performs no step and
returns the solution unchanged. -/
theorem best_improvement_idempotent {S M : Type} (P : LSProblem S M)
    (clock1 : ℕ → ℚ) (budget1 : ℚ) (fuel1 : ℕ) (s0 s1 : S) (t1 : ℕ)
    (hclk : ∀ i, clock1 i < budget1)
    (hrun : best_improvement P clock1 budget1 fuel1 s0 t1 = some s1)
    (clock2 : ℕ → ℚ) (budget2 : ℚ) (fuel2 t2 : ℕ) (hfuel : 0 < fuel2) :
    best_improvement P clock2 budget2 fuel2 s1 t2 = some s1 := by
  have hopt : isLocalOpt P s1 :=
    best_improvement_ends_local_opt P clock1 budget1 hclk fuel1 s0 s1 t1 hrun
  cases fuel2 with
  | zero => omega
  | succ fuel2 =>
    rw [best_improvement]
    by_cases hb : clock2 t2 < budget2
    · rw [if_pos hb]
      rw [biScan_none_of_no_improving P s1 (P.local_moves s1) hopt clock2 budget2 (t2 + 1)]
    · rw [if_neg hb]

/-- Witness for C9 on a concrete move-free instance. -/
theorem best_improvement_idempotent_witness :
    ((∀ _i : ℕ, (0 : ℚ) < 1) ∧
      best_improvement
        (⟨fun s => s, fun _ => [], fun _ _ => [], fun _ _ => 0, fun s _ => s,
          fun s _ _ => s⟩ : LSProblem ℚ Unit)
        (fun _ => 0) 1 1 0 0 = some 0 ∧ 0 < 1) ∧
    best_improvement
      (⟨fun s => s, fun _ => [], fun _ _ => [], fun _ _ => 0, fun s _ => s,
        fun s _ _ => s⟩ : LSProblem ℚ Unit)
      (fun _ => 0) 1 1 0 0 = some 0 := by
  refine ⟨⟨fun _ => by norm_num, by decide, by norm_num⟩, ?_⟩
  exact best_improvement_idempotent _ (fun _ => 0) 1 1 0 0 0
    (fun _ => by norm_num) (by decide) (fun _ => 0) 1 1 0 (by norm_num)

/-- Outcome of the inner move loop of `ils`: an improving step was
applied (`break`), the budget expired mid-scan (`return` path), or the
enumeration was exhausted (`for`-`else`: local optimum). -/
inductive IlsScanResult (S : Type) where
  | stepped (s : S) (t : ℕ)
  | timedout (t : ℕ)
  | exhausted (t : ℕ)

/-- The inner `for move in solution.random_local_moves_wor()` loop of
`ils`. -/
def ilsScan {S M : Type} (P : LSProblem S M) (clock : ℕ → ℚ) (budget : ℚ) (s : S) :
    List M → ℕ → IlsScanResult S
  | [], t => .exhausted t
  | mv :: rest, t =>
    if P.objective_incr_local s mv < 0 ∧ ¬ (isclose (P.objective_incr_local s mv) 0) then
      .stepped (P.step s mv) t
    else if budget ≤ clock t then .timedout (t + 1)
    else ilsScan P clock budget s rest (t + 1)

/-- The outer `while` loop of `ils`: descend; at a local optimum accept
the solution as incumbent when not worse within tolerance (else restart
from the incumbent) and perturb; on exit return whichever of the working
solution and the incumbent has the smaller objective. -/
def ilsLoop {S M : Type} (P : LSProblem S M) (clock : ℕ → ℚ) (budget : ℚ) (ks : ℕ) :
    ℕ → S → S → ℚ → ℕ → ℕ → Option S
  | 0, _, _, _, _, _ => none
  | fuel + 1, s, best, best_obj, t, r =>
    if clock t < budget then
      match ilsScan P clock budget s (P.random_local_moves_wor s r) (t + 1) with
      | .stepped s2 t2 => ilsLoop P clock budget ks fuel s2 best best_obj t2 (r + 1)
      | .timedout _ =>
        if P.objective s < best_obj then some s else some best
      | .exhausted t2 =>
        if P.objective s < best_obj ∨ isclose (P.objective s) best_obj then
          ilsLoop P clock budget ks fuel (P.perturb s ks (r + 1)) s (P.objective s)
            t2 (r + 2)
        else
          ilsLoop P clock budget ks fuel (P.perturb best ks (r + 1)) best best_obj
            t2 (r + 2)
    else
      if P.objective s < best_obj then some s else some best

/-- `ils.ils`: `best = solution.copy()`, `best_obj = best.objective()`,
then the loop. -/
def ils {S M : Type} (P : LSProblem S M) (clock : ℕ → ℚ) (budget : ℚ) (ks : ℕ)
    (fuel : ℕ) (s0 : S) : Option S :=
  ilsLoop P clock budget ks fuel s0 s0 (P.objective s0) 0 0

/-- A drift instance for C6: no local moves (every state is a local
optimum), `perturb` raises the objective by `5e-10`, which stays inside
the absolute tolerance `1e-9` of `isclose`. -/
def P6 : LSProblem ℚ Unit where
  objective := fun s => s
  local_moves := fun _ => []
  random_local_moves_wor := fun _ _ => []
  objective_incr_local := fun _ _ => 0
  step := fun s _ => s
  perturb := fun s _ _ => s + mkRat 1 2000000000

/-- **C6** (counterexample): on `P6`, with budget 2 and a unit-step
clock, `ils` returns a solution with objective `5e-10 > 0` although the
initial objective was `0`: each perturbation is re-accepted as incumbent
because `isclose` treats the `5e-10` increase as equal, so the incumbent
objective drifts upward and the claim
`objective(result) ≤ objective(initial)` fails. -/
theorem ils_can_return_worse :
    ils P6 (fun i => mkRat i 1) 2 3 3 0 = some (mkRat 1 2000000000) ∧
    P6.objective 0 < P6.objective (mkRat 1 2000000000) := by
  constructor
  · decide
  · decide

theorem ilsLoop_no_worse {S M : Type} (P : LSProblem S M) (clock : ℕ → ℚ)
    (budget : ℚ) (ks : ℕ)
    (Hiso : ∀ s s2 : S, isclose (P.objective s) (P.objective s2) = true →
      P.objective s = P.objective s2) :
    ∀ (fuel : ℕ) (s best : S) (bo : ℚ) (t r : ℕ), P.objective best = bo →
      ∀ res : S, ilsLoop P clock budget ks fuel s best bo t r = some res →
        P.objective res ≤ bo := by
  intro fuel
  induction fuel with
  | zero =>
    intro s best bo t r hbo res h
    simp [ilsLoop] at h
  | succ fuel ih =>
    intro s best bo t r hbo res h
    rw [ilsLoop] at h
    by_cases hcl : clock t < budget
    · rw [if_pos hcl] at h
      split at h
      · -- improving step applied
        exact ih _ best bo _ _ hbo res h
      · -- budget expired inside the scan
        by_cases hlt : P.objective s < bo
        · rw [if_pos hlt] at h
          simp only [Option.some.injEq] at h
          rw [← h]
          exact le_of_lt hlt
        · rw [if_neg hlt] at h
          simp only [Option.some.injEq] at h
          rw [← h, hbo]
      · -- local optimum reached
        by_cases hacc : P.objective s < bo ∨ isclose (P.objective s) bo
        · rw [if_pos hacc] at h
          have hle : P.objective s ≤ bo := by
            rcases hacc with hlt | hclose
            · exact le_of_lt hlt
            · rw [← hbo] at hclose
              rw [Hiso s best hclose, hbo]
          exact le_trans (ih _ s (P.objective s) _ _ rfl res h) hle
        · rw [if_neg hacc] at h
          exact ih _ best bo _ _ hbo res h
    · rw [if_neg hcl] at h
      by_cases hlt : P.objective s < bo
      · rw [if_pos hlt] at h
        simp only [Option.some.injEq] at h
        rw [← h]
        exact le_of_lt hlt
      · rw [if_neg hlt] at h
        simp only [Option.some.injEq] at h
        rw [← h, hbo]

/-- **C6** (amended): `ils` never returns a Solution with objective
worse than the initial input's, provided the near-equality tolerance
never identifies two distinct objective values of solution states; in
general the incumbent can drift upward through `isclose`-accepted local
optima (see the counterexample). -/
theorem ils_no_worse {S M : Type} (P : LSProblem S M)
    (Hiso : ∀ s s2 : S, isclose (P.objective s) (P.objective s2) = true →
      P.objective s = P.objective s2)
    (clock : ℕ → ℚ) (budget : ℚ) (ks fuel : ℕ) (s0 res : S)
    (h : ils P clock budget ks fuel s0 = some res) :
    P.objective res ≤ P.objective s0 :=
  ilsLoop_no_worse P clock budget ks Hiso fuel s0 s0 (P.objective s0) 0 0 rfl res h

/-- Witness for the amended C6 on a one-state instance. -/
theorem ils_no_worse_witness :
    ((∀ s s2 : Unit,
        isclose ((⟨fun _ => 0, fun _ => [], fun _ _ => [], fun _ _ => 0, fun s _ => s,
          fun s _ _ => s⟩ : LSProblem Unit Unit).objective s)
          ((⟨fun _ => 0, fun _ => [], fun _ _ => [], fun _ _ => 0, fun s _ => s,
          fun s _ _ => s⟩ : LSProblem Unit Unit).objective s2) = true →
        ((⟨fun _ => 0, fun _ => [], fun _ _ => [], fun _ _ => 0, fun s _ => s,
          fun s _ _ => s⟩ : LSProblem Unit Unit).objective s)
          = ((⟨fun _ => 0, fun _ => [], fun _ _ => [], fun _ _ => 0, fun s _ => s,
          fun s _ _ => s⟩ : LSProblem Unit Unit).objective s2)) ∧
      ils (⟨fun _ => 0, fun _ => [], fun _ _ => [], fun _ _ => 0, fun s _ => s,
        fun s _ _ => s⟩ : LSProblem Unit Unit) (fun _ => 0) 0 3 1 () = some ()) ∧
    (⟨fun _ => 0, fun _ => [], fun _ _ => [], fun _ _ => 0, fun s _ => s,
      fun s _ _ => s⟩ : LSProblem Unit Unit).objective ()
      ≤ (⟨fun _ => 0, fun _ => [], fun _ _ => [], fun _ _ => 0, fun s _ => s,
      fun s _ _ => s⟩ : LSProblem Unit Unit).objective () := by
  refine ⟨⟨fun s s2 _ => rfl, by decide⟩, ?_⟩
  exact ils_no_worse _ (fun s s2 _ => rfl) (fun _ => 0) 0 3 1 () () (by decide)

end S3
